import Mathlib

/-!
Shallow embedding of the dense linear-algebra kernel of the repository
(`graphics/src/matrix.rs` and `maths/src/vector3.rs`).

Rust `f64` values are modelled as exact rationals (`ℚ`) for the purely
arithmetical operations (no rounding occurs in the properties checked
here), and as real numbers (`ℝ`) where `sqrt`/division enter
(`Vector3::magnitude` / `normalize`).  `Result<T, MatrixError>` is
modelled as `Except MatrixError T`.
-/

namespace RustGaming

/-- `MatrixError` from `matrix.rs`. -/
inductive MatrixError where
  | IncorrectDataSize
  | IncompatibleDimensions
  | SquareMatrixRequired
  | InvalidIndex (row column : Nat)
  deriving DecidableEq, Repr

/-- `Matrix` from `matrix.rs`: row-major data, `rows`/`columns` as `usize`. -/
structure Matrix where
  rows : Nat
  columns : Nat
  data : List ℚ
  deriving DecidableEq, Repr

/-- The data-model invariant of §3 of the spec: `data.length == rows*columns`. -/
def Matrix.wf (m : Matrix) : Prop :=
  m.data.length = m.rows * m.columns

instance (m : Matrix) : Decidable m.wf := by
  unfold Matrix.wf
  infer_instance

/-- `Matrix::new`. -/
def Matrix.new (rows columns : Nat) (data : List ℚ) : Except MatrixError Matrix :=
  if data.length ≠ rows * columns then
    .error .IncorrectDataSize
  else
    .ok { rows := rows, columns := columns, data := data }

/-- `Matrix::zeros`. -/
def Matrix.zeros (rows columns : Nat) : Matrix :=
  { rows := rows, columns := columns, data := List.replicate (rows * columns) 0 }

/-- `Matrix::square_zeros`. -/
def Matrix.square_zeros (dimension : Nat) : Matrix :=
  { rows := dimension, columns := dimension,
    data := List.replicate (dimension * dimension) 0 }

/-- `Matrix::get_index_ok`: row-major linear index. -/
def Matrix.get_index_ok (m : Matrix) (row column : Nat) : Nat :=
  column + row * m.columns

/-- `Matrix::get_index`: bounds-checked linear index. -/
def Matrix.get_index (m : Matrix) (row column : Nat) : Except MatrixError Nat :=
  if row ≥ m.rows then
    .error (.InvalidIndex row column)
  else if column ≥ m.columns then
    .error (.InvalidIndex row column)
  else
    .ok (m.get_index_ok row column)

/-- `Matrix::get`.  The Rust read `self.data[v]` is always in bounds for a
well-formed matrix; out-of-range linear reads are modelled with default `0`. -/
def Matrix.get (m : Matrix) (row column : Nat) : Except MatrixError ℚ :=
  match m.get_index row column with
  | .ok v => .ok (m.data.getD v 0)
  | .error e => .error e

/-- `Matrix::set` takes `&mut self` and returns `Result<(), MatrixError>`:
modelled as the post-call matrix paired with the returned result. -/
def Matrix.set (m : Matrix) (row column : Nat) (value : ℚ) :
    Matrix × Except MatrixError Unit :=
  match m.get_index row column with
  | .ok v => ({ m with data := m.data.set v value }, .ok ())
  | .error e => (m, .error e)

/-- `Matrix::identity`: `square_zeros(rows)` with the diagonal written to `1.0`
by the loop `for i in 0..rows { m.data[m.get_index_ok(i, i)] = 1.0 }`. -/
def Matrix.identity (rows : Nat) : Matrix :=
  (List.range rows).foldl
    (fun m i => { m with data := m.data.set (m.get_index_ok i i) 1 })
    (Matrix.square_zeros rows)

/-- `Matrix::sum`, success path: the loop writes index `index` of the freshly
allocated `zeros(rows, columns)` buffer for every `index in 0..self.data.len()`,
so the resulting buffer is exactly this index-wise list. -/
def Matrix.sum (m other : Matrix) : Except MatrixError Matrix :=
  if m.rows ≠ other.rows ∨ m.columns ≠ other.columns then
    .error .IncompatibleDimensions
  else
    .ok { rows := m.rows, columns := m.columns,
          data := (List.range m.data.length).map
            (fun index => m.data.getD index 0 + other.data.getD index 0) }

/-- The inner accumulation of `Matrix::multiply`:
`for elem in 0..self.columns { r += self.data[s_index] * other.data[o_index] }`. -/
def Matrix.mulCell (m other : Matrix) (row column : Nat) : ℚ :=
  (List.range m.columns).foldl
    (fun r elem =>
      r + m.data.getD (m.get_index_ok row elem) 0
            * other.data.getD (other.get_index_ok elem column) 0)
    0

/-- `Matrix::multiply`, success path: the nested loops write cell
`(row, column)` of the `zeros(self.rows, other.columns)` buffer at linear
index `column + row * other.columns`, once each, in row-major order; the
buffer is therefore this index-wise list. -/
def Matrix.multiply (m other : Matrix) : Except MatrixError Matrix :=
  if m.rows ≠ other.columns ∨ m.columns ≠ other.rows then
    .error .IncompatibleDimensions
  else
    .ok { rows := m.rows, columns := other.columns,
          data := (List.range (m.rows * other.columns)).map
            (fun idx => m.mulCell other (idx / other.columns) (idx % other.columns)) }

/-- The column indices visited by the inner submatrix loop of
`Matrix::determinant`: `0..columns` skipping `column_mask`. -/
def maskedColumns (columns column_mask : Nat) : List Nat :=
  (List.range columns).filter (fun column => column ≠ column_mask)

/-- The `(n−1)×(n−1)` submatrix `sub_m` built inside `Matrix::determinant`:
row `row` (for `row in 1..rows`) contributes, left to right, the entries of
row `row` of `self` whose column is not `column_mask`; the writes
`sub_m.set(row - 1, column_index, …)` are consecutive and row-major, so the
buffer equals this concatenation. -/
def Matrix.submatrix (m : Matrix) (column_mask : Nat) : Matrix :=
  { rows := m.rows - 1, columns := m.rows - 1,
    data := (List.range (m.rows - 1)).flatMap
      (fun r => (maskedColumns m.columns column_mask).map
        (fun column => m.data.getD (m.get_index_ok (r + 1) column) 0)) }

/-- The recursion of `Matrix::determinant` after the square check.  The fuel
is the row count: every recursive call is on the `(rows−1)`-row submatrix, so
starting the fuel at `m.rows` reproduces the Rust recursion exactly on square
matrices (a 0-row matrix returns the empty sum `0`, matching fuel `0`). -/
def Matrix.detGo : Nat → Matrix → ℚ
  | 0, _ => 0
  | fuel + 1, m =>
    if m.rows = 2 then
      m.data.getD 0 0 * m.data.getD 3 0 - m.data.getD 1 0 * m.data.getD 2 0
    else
      (List.range m.columns).foldl
        (fun result column_mask =>
          result +
            ((if column_mask % 2 = 0 then (1 : ℚ) else -1)
                * m.data.getD (m.get_index_ok 0 column_mask) 0)
              * Matrix.detGo fuel (m.submatrix column_mask))
        0

/-- `Matrix::determinant`. -/
def Matrix.determinant (m : Matrix) : Except MatrixError ℚ :=
  if m.rows ≠ m.columns then
    .error .SquareMatrixRequired
  else
    .ok (Matrix.detGo m.rows m)

/-- The `.expect` unwrap used by `Vector3::cross_product` on determinant
results (it cannot fail there: every matrix built is square 2×2). -/
def expectD (x : Except MatrixError ℚ) : ℚ :=
  match x with
  | .ok v => v
  | .error _ => 0

/-- Scalar approximate equality from `approx_eq.rs`: `|a − b| <= eps`. -/
def approx_eq (a b eps : ℚ) : Prop :=
  |a - b| ≤ eps

/-- `Vector3` from `vector3.rs` (the division-free operations, `f64` as `ℚ`). -/
structure Vector3 where
  x : ℚ
  y : ℚ
  z : ℚ
  deriving DecidableEq, Repr

/-- Componentwise approximate equality of `Vector3` from `vector3.rs`. -/
def Vector3.approx_eq (a b : Vector3) (eps : ℚ) : Prop :=
  RustGaming.approx_eq a.x b.x eps ∧ RustGaming.approx_eq a.y b.y eps ∧
    RustGaming.approx_eq a.z b.z eps

/-- `Vector3::cross_product`: each component is a 2×2 determinant computed by
the Matrix kernel (`matrix!` builds the row-major 2×2 matrix from the listed
components and the determinant is unwrapped with `.expect`). -/
def Vector3.cross_product (a b : Vector3) : Vector3 :=
  { x := expectD (Matrix.mk 2 2 [a.y, a.z, b.y, b.z]).determinant,
    y := -1 * expectD (Matrix.mk 2 2 [a.x, a.z, b.x, b.z]).determinant,
    z := expectD (Matrix.mk 2 2 [a.x, a.y, b.x, b.y]).determinant }

/-- Modelled from the spec: the direct componentwise cross-product formula
stated in the claim, as the refinement target for `cross_product`. -/
def Vector3.cross_direct (a b : Vector3) : Vector3 :=
  { x := a.y * b.z - a.z * b.y,
    y := a.z * b.x - a.x * b.z,
    z := a.x * b.y - a.y * b.x }

/-- `Vector3` with the real-valued operations of `vector3.rs` (`f64` as `ℝ`,
since `magnitude` takes a square root). -/
structure Vector3R where
  x : ℝ
  y : ℝ
  z : ℝ

/-- `Vector3::multiply` (componentwise scalar multiple), over `ℝ`. -/
def Vector3R.multiply (v : Vector3R) (multiplier : ℝ) : Vector3R :=
  { x := v.x * multiplier, y := v.y * multiplier, z := v.z * multiplier }

/-- `Vector3::magnitude`: `sqrt(x.powf(2) + y.powf(2) + z.powf(2))`. -/
noncomputable def Vector3R.magnitude (v : Vector3R) : ℝ :=
  Real.sqrt (v.x ^ 2 + v.y ^ 2 + v.z ^ 2)

/-- `Vector3::normalize`: divides each component by the magnitude (the
`println!` debug output has no bearing on the returned value). -/
noncomputable def Vector3R.normalize (v : Vector3R) : Vector3R :=
  { x := v.x / v.magnitude, y := v.y / v.magnitude, z := v.z / v.magnitude }

/-- Folding `(· + f ·)` over a list is the initial value plus the sum of the
mapped list (the shape of the accumulation loops in `matrix.rs`). -/
theorem foldl_add_eq_sum (f : Nat → ℚ) :
    ∀ (l : List Nat) (init : ℚ),
      l.foldl (fun r x => r + f x) init = init + (l.map f).sum
  | [], init => by simp
  | x :: l, init => by
    rw [List.foldl_cons, foldl_add_eq_sum f l (init + f x), List.map_cons,
      List.sum_cons, add_assoc]

/-- Indexing the list `(List.range n).map f` with default `0`. -/
theorem getD_map_range (f : Nat → ℚ) (n i : Nat) :
    ((List.range n).map f).getD i 0 = if i < n then f i else 0 := by
  rw [List.getD_eq_getElem?_getD, List.getElem?_map]
  rcases lt_or_ge i n with h | h
  · rw [List.getElem?_range h]
    simp [h]
  · have hnone : (List.range n)[i]? = none := by
      rw [List.getElem?_eq_none_iff]
      simpa using h
    simp [hnone, Nat.not_lt.mpr h]

/-- Reading after a single `List.set`. -/
theorem getD_set_eq (l : List ℚ) (i j : Nat) (v : ℚ) :
    (l.set i v).getD j 0 = if i = j ∧ j < l.length then v else l.getD j 0 := by
  rw [List.getD_eq_getElem?_getD, List.getElem?_set, List.getD_eq_getElem?_getD]
  by_cases h : i = j
  · subst h
    by_cases hl : i < l.length
    · simp [hl]
    · simp [hl, List.getElem?_eq_none_iff.mpr (Nat.le_of_not_lt hl)]
  · simp [h]

/-- Writing a fixed value at positions `g i` for `i ∈ l` (the diagonal loop of
`Matrix::identity`): the final read at `p` sees the value exactly when some
visited `i` wrote position `p` in bounds. -/
theorem getD_foldl_set_const (g : Nat → Nat) (v : ℚ) :
    ∀ (l : List Nat) (init : List ℚ) (p : Nat),
      (l.foldl (fun d i => d.set (g i) v) init).getD p 0 =
        if (∃ i ∈ l, g i = p) ∧ p < init.length then v else init.getD p 0
  | [], init, p => by simp
  | a :: l, init, p => by
    rw [List.foldl_cons, getD_foldl_set_const g v l (init.set (g a) v) p,
      List.length_set, getD_set_eq]
    have hsplit : (∃ i ∈ a :: l, g i = p) ↔ (g a = p ∨ ∃ i ∈ l, g i = p) := by
      constructor
      · rintro ⟨i, hi, hgi⟩
        rcases List.mem_cons.mp hi with rfl | hi
        · exact Or.inl hgi
        · exact Or.inr ⟨i, hi, hgi⟩
      · rintro (hga | ⟨i, hi, hgi⟩)
        · exact ⟨a, List.mem_cons_self a l, hga⟩
        · exact ⟨i, List.mem_cons_of_mem a hi, hgi⟩
    by_cases hlen : p < init.length <;> by_cases hga : g a = p <;>
      by_cases htail : ∃ i ∈ l, g i = p <;>
      simp [hsplit, hga, htail, hlen]

/-- The write loop preserves the buffer length. -/
theorem length_foldl_set (g : Nat → Nat) (v : ℚ) :
    ∀ (l : List Nat) (init : List ℚ),
      (l.foldl (fun d i => d.set (g i) v) init).length = init.length
  | [], _ => rfl
  | a :: l, init => by
    rw [List.foldl_cons, length_foldl_set g v l (init.set (g a) v), List.length_set]

/-- The `identity` loop only rewrites `data`; with the column count fixed it
is a fold over the data list writing `1` at the diagonal indices. -/
theorem identity_foldl (c : Nat) :
    ∀ (l : List Nat) (m : Matrix), m.columns = c →
      l.foldl (fun m i => { m with data := m.data.set (m.get_index_ok i i) 1 }) m
        = { m with data := l.foldl (fun d i => d.set (i + i * c) 1) m.data }
  | [], m, _ => rfl
  | a :: l, m, h => by
    rw [List.foldl_cons, List.foldl_cons,
      identity_foldl c l { m with data := m.data.set (m.get_index_ok a a) 1 } h]
    simp [Matrix.get_index_ok, h]

/-- Closed form of `Matrix::identity`. -/
theorem identity_eq (n : Nat) :
    Matrix.identity n =
      { rows := n, columns := n,
        data := (List.range n).foldl (fun d i => d.set (i + i * n) 1)
          (List.replicate (n * n) 0) } := by
  unfold Matrix.identity
  rw [identity_foldl n (List.range n) (Matrix.square_zeros n) rfl]
  rfl

theorem identity_rows (n : Nat) : (Matrix.identity n).rows = n := by
  rw [identity_eq]

theorem identity_columns (n : Nat) : (Matrix.identity n).columns = n := by
  rw [identity_eq]

theorem identity_data_length (n : Nat) : (Matrix.identity n).data.length = n * n := by
  rw [identity_eq]
  simp only
  rw [length_foldl_set (fun i => i + i * n) 1]
  simp

/-- Only the diagonal write `i` with `i = r = c` targets linear index
`c + r * n`. -/
theorem diag_index_inj {n r c i : Nat} (hr : r < n) (hc : c < n) (hi : i < n)
    (h : i + i * n = c + r * n) : i = c ∧ i = r := by
  have hmod : (i + i * n) % n = i := by
    rw [Nat.add_mul_mod_self_right, Nat.mod_eq_of_lt hi]
  have hmod2 : (c + r * n) % n = c := by
    rw [Nat.add_mul_mod_self_right, Nat.mod_eq_of_lt hc]
  have hic : i = c := by rw [← hmod, h, hmod2]
  subst hic
  refine ⟨rfl, ?_⟩
  have hmul : i * n = r * n := Nat.add_left_cancel h
  exact Nat.eq_of_mul_eq_mul_right (Nat.lt_of_le_of_lt (Nat.zero_le i) hi) hmul

/-- Row-major index of a valid cell is in bounds. -/
theorem cell_index_lt {rows columns r c : Nat} (hr : r < rows) (hc : c < columns) :
    c + r * columns < rows * columns := by
  calc c + r * columns < columns + r * columns := Nat.add_lt_add_right hc _
  _ = (r + 1) * columns := by ring
  _ ≤ rows * columns := Nat.mul_le_mul_right columns hr

/-- The entries of `Matrix::identity`. -/
theorem identity_entry (n r c : Nat) (hr : r < n) (hc : c < n) :
    (Matrix.identity n).data.getD (c + r * n) 0 = if r = c then 1 else 0 := by
  rw [identity_eq]
  simp only
  rw [getD_foldl_set_const (fun i => i + i * n) 1 (List.range n)
    (List.replicate (n * n) 0) (c + r * n)]
  have hlt : c + r * n < (List.replicate (n * n) (0 : ℚ)).length := by
    rw [List.length_replicate]
    exact cell_index_lt hr hc
  by_cases hrc : r = c
  · cases hrc
    have hex : (∃ i ∈ List.range n, i + i * n = r + r * n) ∧
        r + r * n < (List.replicate (n * n) (0 : ℚ)).length :=
      ⟨⟨r, List.mem_range.mpr hr, rfl⟩, hlt⟩
    rw [if_pos hex, if_pos rfl]
  · have hnex : ¬ ((∃ i ∈ List.range n, i + i * n = c + r * n) ∧
        c + r * n < (List.replicate (n * n) (0 : ℚ)).length) := by
      rintro ⟨⟨i, hi, hgi⟩, -⟩
      obtain ⟨hic, hir⟩ := diag_index_inj hr hc (List.mem_range.mp hi) hgi
      exact hrc (by rw [← hir, hic])
    rw [if_neg hnex, if_neg hrc]
    rw [List.getD_eq_getElem?_getD, List.getElem?_replicate]
    split <;> rfl

/-- Field-wise equality of matrices. -/
theorem Matrix.ext_fields {a b : Matrix} (h1 : a.rows = b.rows)
    (h2 : a.columns = b.columns) (h3 : a.data = b.data) : a = b := by
  cases a
  cases b
  cases h1
  cases h2
  cases h3
  rfl

/-- Length of a flatMap of constant-length blocks. -/
theorem length_flatMap_const (f : Nat → List ℚ) (L : Nat)
    (hf : ∀ i, (f i).length = L) :
    ∀ k : Nat, ((List.range k).flatMap f).length = k * L
  | 0 => by simp
  | k + 1 => by
    rw [List.range_succ, List.flatMap_append, List.length_append,
      length_flatMap_const f L hf k]
    simp [hf k, Nat.succ_mul]

/-- Indexing a flatMap of constant-length blocks, row-major. -/
theorem getD_flatMap_const (f : Nat → List ℚ) (L : Nat)
    (hf : ∀ i, (f i).length = L) :
    ∀ (k r c : Nat), r < k → c < L →
      ((List.range k).flatMap f).getD (c + r * L) 0 = (f r).getD c 0
  | 0, r, _, hr, _ => absurd hr (Nat.not_lt_zero r)
  | k + 1, r, c, hr, hc => by
    rw [List.range_succ, List.flatMap_append]
    rcases Nat.lt_or_ge r k with hrk | hrk
    · rw [List.getD_eq_getElem?_getD,
        List.getElem?_append_left (by
          rw [length_flatMap_const f L hf k]
          exact cell_index_lt hrk hc),
        ← List.getD_eq_getElem?_getD]
      exact getD_flatMap_const f L hf k r c hrk hc
    · have hrk2 : r = k := Nat.le_antisymm (Nat.lt_succ_iff.mp hr) hrk
      subst hrk2
      rw [List.getD_eq_getElem?_getD,
        List.getElem?_append_right (by
          rw [length_flatMap_const f L hf r]
          exact Nat.le_add_left _ _),
        length_flatMap_const f L hf r, Nat.add_sub_cancel]
      simp [← List.getD_eq_getElem?_getD]

/-- Skipping column 0 of `0..n+1` leaves the successors of `0..n`. -/
theorem maskedColumns_zero (n : Nat) :
    maskedColumns (n + 1) 0 = (List.range n).map Nat.succ := by
  unfold maskedColumns
  rw [List.range_succ_eq_map, List.filter_cons]
  simp only [List.filter_map, decide_not, ne_eq, decide_True, Bool.not_true,
    Bool.false_eq_true, not_false_eq_true, if_false]
  congr 1
  apply List.filter_eq_self.mpr
  intro a _
  simp [Function.comp]

/-- Deleting row 0 and column 0 of `identity (n+1)` yields `identity n`. -/
theorem identity_submatrix_zero (n : Nat) :
    (Matrix.identity (n + 1)).submatrix 0 = Matrix.identity n := by
  apply Matrix.ext_fields
  · show (Matrix.identity (n + 1)).rows - 1 = (Matrix.identity n).rows
    rw [identity_rows, identity_rows]
    rfl
  · show (Matrix.identity (n + 1)).rows - 1 = (Matrix.identity n).columns
    rw [identity_rows, identity_columns]
    rfl
  · show (List.range ((Matrix.identity (n + 1)).rows - 1)).flatMap
        (fun r => (maskedColumns (Matrix.identity (n + 1)).columns 0).map
          (fun column => (Matrix.identity (n + 1)).data.getD
            ((Matrix.identity (n + 1)).get_index_ok (r + 1) column) 0))
        = (Matrix.identity n).data
    rw [identity_rows, identity_columns, Nat.add_sub_cancel, maskedColumns_zero]
    have hblock : ∀ r : Nat,
        ((List.range n).map Nat.succ).map
          (fun column => (Matrix.identity (n + 1)).data.getD
            ((Matrix.identity (n + 1)).get_index_ok (r + 1) column) 0)
          = (List.range n).map
            (fun c => (Matrix.identity (n + 1)).data.getD
              ((c + 1) + (r + 1) * (n + 1)) 0) := by
      intro r
      rw [List.map_map]
      apply List.map_congr_left
      intro c _
      simp [Function.comp, Matrix.get_index_ok, identity_columns, Nat.succ_eq_add_one]
    have hflen : ∀ r : Nat,
        (((List.range n).map Nat.succ).map
          (fun column => (Matrix.identity (n + 1)).data.getD
            ((Matrix.identity (n + 1)).get_index_ok (r + 1) column) 0)).length = n := by
      intro r
      rw [List.length_map, List.length_map, List.length_range]
    apply List.ext_getElem
    · rw [List.length_flatMap]
      have hall : ∀ r ∈ List.range n,
          (List.length ∘ fun r => ((List.range n).map Nat.succ).map
            (fun column => (Matrix.identity (n + 1)).data.getD
              ((Matrix.identity (n + 1)).get_index_ok (r + 1) column) 0)) r = n := by
        intro r _
        simp
      rw [List.sum_eq_card_nsmul _ n (by simpa using hall)]
      simp [identity_data_length n, Nat.mul_comm]
    · intro i h1 h2
      rw [identity_data_length n] at h2
      rcases Nat.eq_zero_or_pos n with rfl | hn
      · exact absurd h2 (by simp)
      obtain ⟨r, c, hr, hc, rfl⟩ : ∃ r c, r < n ∧ c < n ∧ i = c + r * n := by
        refine ⟨i / n, i % n, ?_, Nat.mod_lt i hn, ?_⟩
        · exact (Nat.div_lt_iff_lt_mul hn).mpr h2
        · rw [Nat.mod_add_div']
      have hgL : ((List.range n).flatMap
          (fun r => ((List.range n).map Nat.succ).map
            (fun column => (Matrix.identity (n + 1)).data.getD
              ((Matrix.identity (n + 1)).get_index_ok (r + 1) column) 0))).getD
          (c + r * n) 0
          = if r = c then 1 else 0 := by
        rw [getD_flatMap_const _ n hflen n r c hr hc, hblock r,
          getD_map_range, if_pos hc,
          identity_entry (n + 1) (r + 1) (c + 1)
            (Nat.add_lt_add_right hr 1) (Nat.add_lt_add_right hc 1)]
        by_cases hrc : r = c
        · simp [hrc]
        · rw [if_neg (by omega), if_neg hrc]
      have hgR : (Matrix.identity n).data.getD (c + r * n) 0
          = if r = c then 1 else 0 := identity_entry n r c hr hc
      have e1 : ∀ (l : List ℚ) (j : Nat) (hj : j < l.length), l[j] = l.getD j 0 := by
        intro l j hj
        rw [List.getD_eq_getElem?_getD, List.getElem?_eq_getElem hj]
        rfl
      rw [e1 _ _ h1, e1 _ _ (by rw [identity_data_length n]; exact cell_index_lt hr hc),
        hgL, hgR]

/-- `determinant` on a square matrix returns `Ok` of the recursion. -/
theorem determinant_eq_ok (m : Matrix) (h : m.rows = m.columns) :
    m.determinant = .ok (Matrix.detGo m.rows m) := by
  unfold Matrix.determinant
  rw [if_neg (not_not_intro h)]

/-- The 2×2 base case of the recursion. -/
theorem detGo_two (fuel : Nat) (m : Matrix) (h : m.rows = 2) :
    Matrix.detGo (fuel + 1) m =
      m.data.getD 0 0 * m.data.getD 3 0 - m.data.getD 1 0 * m.data.getD 2 0 := by
  simp only [Matrix.detGo, if_pos h]

/-- The cofactor-expansion case of the recursion, as a sum over the columns. -/
theorem detGo_expand (fuel : Nat) (m : Matrix) (h : m.rows ≠ 2) :
    Matrix.detGo (fuel + 1) m =
      ((List.range m.columns).map (fun column_mask =>
        ((if column_mask % 2 = 0 then (1 : ℚ) else -1)
            * m.data.getD (m.get_index_ok 0 column_mask) 0)
          * Matrix.detGo fuel (m.submatrix column_mask))).sum := by
  simp only [Matrix.detGo, if_neg h]
  rw [foldl_add_eq_sum (fun column_mask =>
    ((if column_mask % 2 = 0 then (1 : ℚ) else -1)
        * m.data.getD (m.get_index_ok 0 column_mask) 0)
      * Matrix.detGo fuel (m.submatrix column_mask)) (List.range m.columns) 0]
  rw [zero_add]

/-- The recursion evaluates to `1` on every identity matrix of size `≥ 2`. -/
theorem detGo_identity (n : Nat) (hn : 2 ≤ n) :
    Matrix.detGo n (Matrix.identity n) = 1 := by
  induction n, hn using Nat.le_induction with
  | base =>
    rw [identity_eq]
    norm_num [Matrix.detGo, List.range_succ, List.getD, List.set]
  | succ n hn ih =>
    have hne2 : (Matrix.identity (n + 1)).rows ≠ 2 := by
      rw [identity_rows]
      omega
    rw [detGo_expand n (Matrix.identity (n + 1)) hne2, identity_columns,
      List.range_succ_eq_map, List.map_cons, List.sum_cons]
    have hhead : ((if 0 % 2 = 0 then (1 : ℚ) else -1)
        * (Matrix.identity (n + 1)).data.getD
            ((Matrix.identity (n + 1)).get_index_ok 0 0) 0)
        * Matrix.detGo n ((Matrix.identity (n + 1)).submatrix 0) = 1 := by
      have hidx : (Matrix.identity (n + 1)).get_index_ok 0 0 = 0 + 0 * (n + 1) := by
        simp [Matrix.get_index_ok, identity_columns]
      rw [hidx, identity_entry (n + 1) 0 0 (Nat.succ_pos n) (Nat.succ_pos n),
        identity_submatrix_zero n, ih]
      norm_num
    have htail : (List.map ((fun column_mask =>
        ((if column_mask % 2 = 0 then (1 : ℚ) else -1)
            * (Matrix.identity (n + 1)).data.getD
                ((Matrix.identity (n + 1)).get_index_ok 0 column_mask) 0)
          * Matrix.detGo n ((Matrix.identity (n + 1)).submatrix column_mask))
          ∘ Nat.succ) (List.range n)).sum = 0 := by
      apply List.sum_eq_zero
      intro x hx
      obtain ⟨c, hc, rfl⟩ := List.mem_map.mp hx
      have hcn : c < n := List.mem_range.mp hc
      have hidx : (Matrix.identity (n + 1)).get_index_ok 0 (Nat.succ c)
          = (c + 1) + 0 * (n + 1) := by
        simp [Matrix.get_index_ok, identity_columns, Nat.succ_eq_add_one]
      simp only [Function.comp_apply, hidx]
      rw [identity_entry (n + 1) 0 (c + 1) (Nat.succ_pos n) (by omega),
        if_neg (show ¬ (0 : Nat) = c + 1 by omega)]
      ring
    rw [List.map_map, hhead, htail, add_zero]

/-- `get_index` on an in-bounds coordinate. -/
theorem get_index_in_bounds (m : Matrix) (r c : Nat) (hr : r < m.rows)
    (hc : c < m.columns) : m.get_index r c = .ok (c + r * m.columns) := by
  unfold Matrix.get_index
  rw [if_neg (by omega), if_neg (by omega)]
  rfl

/-- `get` on an in-bounds coordinate reads the row-major entry. -/
theorem get_in_bounds (m : Matrix) (r c : Nat) (hr : r < m.rows)
    (hc : c < m.columns) : m.get r c = .ok (m.data.getD (c + r * m.columns) 0) := by
  unfold Matrix.get
  rw [get_index_in_bounds m r c hr hc]

/-- C1: `determinant()` fails with `SquareMatrixRequired` exactly when the
matrix is not square; a square 2×2 returns `ad − bc` from the stored data; a
square matrix with `n ≥ 3` rows returns the Laplace expansion along row 0:
the sum over `column_mask` of `sign(column_mask) * self[0, column_mask]`
times the determinant of the submatrix that deletes row 0 and column
`column_mask` (which itself evaluates via `determinant`). -/
theorem determinant_spec (m : Matrix) :
    (m.determinant = .error .SquareMatrixRequired ↔ m.rows ≠ m.columns) ∧
    (m.rows = 2 → m.columns = 2 →
      m.determinant = .ok (m.data.getD 0 0 * m.data.getD 3 0
        - m.data.getD 1 0 * m.data.getD 2 0)) ∧
    (m.rows = m.columns → 3 ≤ m.rows →
      (∀ column_mask, (m.submatrix column_mask).determinant
          = .ok (Matrix.detGo (m.rows - 1) (m.submatrix column_mask))) ∧
      m.determinant = .ok (((List.range m.columns).map (fun column_mask =>
        ((if column_mask % 2 = 0 then (1 : ℚ) else -1)
            * m.data.getD (m.get_index_ok 0 column_mask) 0)
          * Matrix.detGo (m.rows - 1) (m.submatrix column_mask))).sum)) := by
  refine ⟨?_, ?_, ?_⟩
  · by_cases h : m.rows = m.columns
    · rw [determinant_eq_ok m h]
      simp [h]
    · unfold Matrix.determinant
      rw [if_pos h]
      simp [h]
  · intro h2 hc2
    rw [determinant_eq_ok m (by rw [h2, hc2]), h2,
      show (2 : Nat) = 1 + 1 from rfl, detGo_two 1 m h2]
  · intro hsq h3
    constructor
    · intro column_mask
      exact determinant_eq_ok (m.submatrix column_mask) rfl
    · have hexp := detGo_expand (m.rows - 1) m (by omega)
      have hfix : m.rows - 1 + 1 = m.rows := by omega
      rw [hfix] at hexp
      rw [determinant_eq_ok m hsq, hexp]

theorem determinant_spec_witness :
    (Matrix.mk 3 3 [1, 2, 3, 4, 5, 6, 7, 8, 9]).determinant
      = .ok (((List.range 3).map (fun column_mask =>
        ((if column_mask % 2 = 0 then (1 : ℚ) else -1)
            * (Matrix.mk 3 3 [1, 2, 3, 4, 5, 6, 7, 8, 9]).data.getD
                ((Matrix.mk 3 3 [1, 2, 3, 4, 5, 6, 7, 8, 9]).get_index_ok
                  0 column_mask) 0)
          * Matrix.detGo 2
              ((Matrix.mk 3 3 [1, 2, 3, 4, 5, 6, 7, 8, 9]).submatrix
                column_mask))).sum) :=
  ((determinant_spec (Matrix.mk 3 3 [1, 2, 3, 4, 5, 6, 7, 8, 9])).2.2
    rfl (by decide)).2

/-- C5: for every `n ≥ 2`, `Matrix::identity(n).determinant()` succeeds and
returns exactly `1.0`. -/
theorem identity_determinant_one (n : Nat) (hn : 2 ≤ n) :
    (Matrix.identity n).determinant = .ok 1 := by
  rw [determinant_eq_ok (Matrix.identity n)
    (by rw [identity_rows, identity_columns]), identity_rows, detGo_identity n hn]

theorem identity_determinant_one_witness :
    (Matrix.identity 3).determinant = .ok 1 :=
  identity_determinant_one 3 (by decide)

/-- C10: a square matrix with 0 or 1 rows has determinant `Ok(0.0)`: the
expansion loop bottoms out below the 2×2 base case, so a 1×1 determinant is
`0.0` regardless of the stored element. -/
theorem small_square_determinant_zero (m : Matrix) (hsq : m.rows = m.columns)
    (h1 : m.rows ≤ 1) : m.determinant = .ok 0 := by
  rw [determinant_eq_ok m hsq]
  rcases Nat.le_one_iff_eq_zero_or_eq_one.mp h1 with h0 | h0
  · rw [h0]
    rfl
  · have hc1 : m.columns = 1 := by
      rw [← hsq, h0]
    have hne2 : m.rows ≠ 2 := by omega
    rw [h0, show (1 : Nat) = 0 + 1 from rfl, detGo_expand 0 m hne2, hc1]
    simp [Matrix.detGo]

theorem small_square_determinant_zero_witness :
    (Matrix.identity 1).determinant = .ok 0 :=
  small_square_determinant_zero (Matrix.identity 1) (by decide) (by decide)

/-- C3: `Matrix::new` succeeds exactly on data of length `rows*columns`,
after which `get(r, c)` reads `data[c + r*columns]`; otherwise it fails with
`IncorrectDataSize`. -/
theorem new_spec (rows columns : Nat) (data : List ℚ) :
    (data.length = rows * columns →
      Matrix.new rows columns data
          = .ok { rows := rows, columns := columns, data := data } ∧
      ∀ r c, r < rows → c < columns →
        (Matrix.mk rows columns data).get r c
            = .ok (data.getD (c + r * columns) 0)) ∧
    (data.length ≠ rows * columns →
      Matrix.new rows columns data = .error .IncorrectDataSize) := by
  constructor
  · intro h
    constructor
    · unfold Matrix.new
      rw [if_neg (not_not_intro h)]
    · intro r c hr hc
      exact get_in_bounds (Matrix.mk rows columns data) r c hr hc
  · intro h
    unfold Matrix.new
    rw [if_pos h]

theorem new_spec_witness :
    (Matrix.new 2 2 [1, 2, 3, 4] = .ok (Matrix.mk 2 2 [1, 2, 3, 4]) ∧
      (Matrix.mk 2 2 [1, 2, 3, 4]).get 1 0
        = .ok (([1, 2, 3, 4] : List ℚ).getD (0 + 1 * 2) 0)) ∧
    Matrix.new 2 2 [1, 2, 3] = .error .IncorrectDataSize := by
  refine ⟨⟨((new_spec 2 2 [1, 2, 3, 4]).1 (by decide)).1,
    ((new_spec 2 2 [1, 2, 3, 4]).1 (by decide)).2 1 0 (by decide) (by decide)⟩,
    (new_spec 2 2 [1, 2, 3]).2 (by decide)⟩

/-- C4: every matrix produced by `new`, `zeros`, `square_zeros`, `identity`,
`sum` and `multiply` satisfies `data.length == rows*columns`, and `set`
preserves the invariant. -/
theorem wf_spec :
    (∀ rows columns data m, Matrix.new rows columns data = .ok m → m.wf) ∧
    (∀ rows columns, (Matrix.zeros rows columns).wf) ∧
    (∀ dimension, (Matrix.square_zeros dimension).wf) ∧
    (∀ n, (Matrix.identity n).wf) ∧
    (∀ (a b s : Matrix), a.wf → a.sum b = .ok s → s.wf) ∧
    (∀ (a b p : Matrix), a.multiply b = .ok p → p.wf) ∧
    (∀ (m : Matrix) (r c : Nat) (v : ℚ), m.wf → ((m.set r c v).fst).wf) := by
  refine ⟨?_, ?_, ?_, ?_, ?_, ?_, ?_⟩
  · intro rows columns data m h
    unfold Matrix.new at h
    by_cases hcond : data.length = rows * columns
    · rw [if_neg (not_not_intro hcond)] at h
      cases h
      exact hcond
    · rw [if_pos hcond] at h
      exact absurd h (by simp)
  · intro rows columns
    simp [Matrix.wf, Matrix.zeros]
  · intro dimension
    simp [Matrix.wf, Matrix.square_zeros]
  · intro n
    unfold Matrix.wf
    rw [identity_data_length, identity_rows, identity_columns]
  · intro a b s ha h
    unfold Matrix.sum at h
    by_cases hcond : a.rows ≠ b.rows ∨ a.columns ≠ b.columns
    · rw [if_pos hcond] at h
      exact absurd h (by simp)
    · rw [if_neg hcond] at h
      cases h
      simpa [Matrix.wf] using ha
  · intro a b p h
    unfold Matrix.multiply at h
    by_cases hcond : a.rows ≠ b.columns ∨ a.columns ≠ b.rows
    · rw [if_pos hcond] at h
      exact absurd h (by simp)
    · rw [if_neg hcond] at h
      cases h
      simp [Matrix.wf]
  · intro m r c v hwf
    cases hE : m.get_index r c with
    | ok idx =>
      simpa [Matrix.set, hE, Matrix.wf, List.length_set] using hwf
    | error e =>
      simpa [Matrix.set, hE, Matrix.wf] using hwf

theorem wf_spec_witness : ((Matrix.mk 1 1 [5]).set 0 0 7).fst.wf :=
  wf_spec.2.2.2.2.2.2 (Matrix.mk 1 1 [5]) 0 0 7 (by decide)

/-- C7: out-of-range `get`/`set` fail with `InvalidIndex` carrying exactly
the offending pair, and the failing `set` leaves the matrix unchanged. -/
theorem invalid_index_spec (m : Matrix) (row column : Nat) (value : ℚ)
    (h : m.rows ≤ row ∨ m.columns ≤ column) :
    m.get row column = .error (.InvalidIndex row column) ∧
    (m.set row column value).snd = .error (.InvalidIndex row column) ∧
    (m.set row column value).fst = m := by
  have hidx : m.get_index row column = .error (.InvalidIndex row column) := by
    unfold Matrix.get_index
    rcases h with h | h
    · rw [if_pos h]
    · by_cases h2 : row ≥ m.rows
      · rw [if_pos h2]
      · rw [if_neg h2, if_pos h]
  refine ⟨?_, ?_, ?_⟩ <;> simp [Matrix.get, Matrix.set, hidx]

theorem invalid_index_spec_witness :
    (Matrix.zeros 2 2).get 3 0 = .error (.InvalidIndex 3 0) ∧
    ((Matrix.zeros 2 2).set 3 0 6).snd = .error (.InvalidIndex 3 0) ∧
    ((Matrix.zeros 2 2).set 3 0 6).fst = Matrix.zeros 2 2 :=
  invalid_index_spec (Matrix.zeros 2 2) 3 0 6 (Or.inl (by decide))

/-- C2: `multiply` fails with `IncompatibleDimensions` exactly when the
mutual-transpose shape check `self.rows == other.columns && self.columns ==
other.rows` fails; on success the product has shape
`self.rows × other.columns` and entry `(row, col)` equals
`Σ_k self[row, k] * other[k, col]` for `k` in `0..self.columns`. -/
theorem multiply_spec (a b : Matrix) :
    (a.multiply b = .error .IncompatibleDimensions
      ↔ ¬(a.rows = b.columns ∧ a.columns = b.rows)) ∧
    (a.rows = b.columns → a.columns = b.rows →
      ∃ p, a.multiply b = .ok p ∧ p.rows = a.rows ∧ p.columns = b.columns ∧
        ∀ row col, row < a.rows → col < b.columns →
          p.get row col = .ok (((List.range a.columns).map (fun k =>
            a.data.getD (a.get_index_ok row k) 0
              * b.data.getD (b.get_index_ok k col) 0)).sum)) := by
  constructor
  · unfold Matrix.multiply
    by_cases hcond : a.rows ≠ b.columns ∨ a.columns ≠ b.rows
    · rw [if_pos hcond]
      have hnand : ¬(a.rows = b.columns ∧ a.columns = b.rows) := by tauto
      simp [hnand]
    · rw [if_neg hcond]
      have hand : a.rows = b.columns ∧ a.columns = b.rows := by tauto
      simp [hand]
  · intro h1 h2
    refine ⟨{ rows := a.rows, columns := b.columns,
              data := (List.range (a.rows * b.columns)).map
                (fun idx => a.mulCell b (idx / b.columns) (idx % b.columns)) },
            ?_, rfl, rfl, ?_⟩
    · unfold Matrix.multiply
      rw [if_neg (by simp [h1, h2])]
    · intro row col hrow hcol
      have hbpos : 0 < b.columns := Nat.lt_of_le_of_lt (Nat.zero_le col) hcol
      have hdiv : (col + row * b.columns) / b.columns = row := by
        rw [Nat.add_mul_div_right _ _ hbpos, Nat.div_eq_of_lt hcol, Nat.zero_add]
      have hmod : (col + row * b.columns) % b.columns = col := by
        rw [Nat.add_mul_mod_self_right, Nat.mod_eq_of_lt hcol]
      rw [get_in_bounds (Matrix.mk a.rows b.columns ((List.range (a.rows * b.columns)).map (fun idx => a.mulCell b (idx / b.columns) (idx % b.columns)))) row col hrow hcol]
      congr 1
      show ((List.range (a.rows * b.columns)).map
          (fun idx => a.mulCell b (idx / b.columns) (idx % b.columns))).getD
            (col + row * b.columns) 0 = _
      rw [getD_map_range, if_pos (cell_index_lt hrow hcol), hdiv, hmod]
      unfold Matrix.mulCell
      rw [foldl_add_eq_sum (fun elem =>
        a.data.getD (a.get_index_ok row elem) 0
          * b.data.getD (b.get_index_ok elem col) 0) (List.range a.columns) 0,
        zero_add]

theorem multiply_spec_witness :
    ∃ p, (Matrix.mk 2 3 [1, 2, 3, 4, 5, 6]).multiply
        (Matrix.mk 3 2 [7, 8, 9, 10, 11, 12]) = .ok p ∧
      p.rows = (Matrix.mk 2 3 [1, 2, 3, 4, 5, 6]).rows ∧
      p.columns = (Matrix.mk 3 2 [7, 8, 9, 10, 11, 12]).columns ∧
      ∀ row col, row < (Matrix.mk 2 3 [1, 2, 3, 4, 5, 6]).rows →
        col < (Matrix.mk 3 2 [7, 8, 9, 10, 11, 12]).columns →
        p.get row col = .ok (((List.range
            (Matrix.mk 2 3 [1, 2, 3, 4, 5, 6]).columns).map (fun k =>
          (Matrix.mk 2 3 [1, 2, 3, 4, 5, 6]).data.getD
              ((Matrix.mk 2 3 [1, 2, 3, 4, 5, 6]).get_index_ok row k) 0
            * (Matrix.mk 3 2 [7, 8, 9, 10, 11, 12]).data.getD
                ((Matrix.mk 3 2 [7, 8, 9, 10, 11, 12]).get_index_ok k col) 0)).sum) :=
  (multiply_spec (Matrix.mk 2 3 [1, 2, 3, 4, 5, 6])
    (Matrix.mk 3 2 [7, 8, 9, 10, 11, 12])).2 rfl rfl

/-- C8: for equal-shaped (well-formed) matrices, `a.sum(b)` and `b.sum(a)`
both succeed, produce the same matrix of the same shape, and each entry is
the elementwise sum. -/
theorem sum_spec (a b : Matrix) (hr : a.rows = b.rows) (hc : a.columns = b.columns)
    (ha : a.wf) (hb : b.wf) :
    ∃ s, a.sum b = .ok s ∧ b.sum a = .ok s ∧
      s.rows = a.rows ∧ s.columns = a.columns ∧
      ∀ r c, r < a.rows → c < a.columns →
        s.get r c = .ok (a.data.getD (c + r * a.columns) 0
          + b.data.getD (c + r * a.columns) 0) := by
  have hlen : a.data.length = b.data.length := by
    rw [ha, hb, hr, hc]
  refine ⟨{ rows := a.rows, columns := a.columns,
            data := (List.range a.data.length).map
              (fun index => a.data.getD index 0 + b.data.getD index 0) },
          ?_, ?_, rfl, rfl, ?_⟩
  · unfold Matrix.sum
    rw [if_neg (by simp [hr, hc])]
  · unfold Matrix.sum
    rw [if_neg (by simp [hr, hc])]
    congr 1
    apply Matrix.ext_fields
    · exact hr.symm
    · exact hc.symm
    · show (List.range b.data.length).map
          (fun index => b.data.getD index 0 + a.data.getD index 0)
          = (List.range a.data.length).map
            (fun index => a.data.getD index 0 + b.data.getD index 0)
      rw [← hlen]
      apply List.map_congr_left
      intro i _
      exact add_comm _ _
  · intro r c hrc hcc
    rw [get_in_bounds (Matrix.mk a.rows a.columns ((List.range a.data.length).map (fun index => a.data.getD index 0 + b.data.getD index 0))) r c hrc hcc]
    congr 1
    show ((List.range a.data.length).map
        (fun index => a.data.getD index 0 + b.data.getD index 0)).getD
          (c + r * a.columns) 0 = _
    rw [getD_map_range, if_pos (by
      rw [ha]
      exact cell_index_lt hrc hcc)]

theorem sum_spec_witness :
    ∃ s, (Matrix.mk 2 2 [1, 2, 3, 4]).sum (Matrix.mk 2 2 [5, 6, 7, 8]) = .ok s ∧
      (Matrix.mk 2 2 [5, 6, 7, 8]).sum (Matrix.mk 2 2 [1, 2, 3, 4]) = .ok s ∧
      s.rows = (Matrix.mk 2 2 [1, 2, 3, 4]).rows ∧
      s.columns = (Matrix.mk 2 2 [1, 2, 3, 4]).columns ∧
      ∀ r c, r < (Matrix.mk 2 2 [1, 2, 3, 4]).rows →
        c < (Matrix.mk 2 2 [1, 2, 3, 4]).columns →
        s.get r c = .ok ((Matrix.mk 2 2 [1, 2, 3, 4]).data.getD
            (c + r * (Matrix.mk 2 2 [1, 2, 3, 4]).columns) 0
          + (Matrix.mk 2 2 [5, 6, 7, 8]).data.getD
              (c + r * (Matrix.mk 2 2 [1, 2, 3, 4]).columns) 0) :=
  sum_spec (Matrix.mk 2 2 [1, 2, 3, 4]) (Matrix.mk 2 2 [5, 6, 7, 8])
    rfl rfl (by decide) (by decide)

/-- Determinant of a literal 2×2 matrix is `ad − bc`. -/
theorem det2_mk (p q r s : ℚ) :
    (Matrix.mk 2 2 [p, q, r, s]).determinant = .ok (p * s - q * r) := by
  rw [determinant_eq_ok (Matrix.mk 2 2 [p, q, r, s]) rfl]
  congr 1

/-- C6: `cross_product` computes each component as a 2×2 Matrix determinant,
this equals the direct componentwise formula, and in particular
`(1,0,0) × (0,1,0) ≈ (0,0,1)` within the default epsilon `1e-6`. -/
theorem cross_product_spec (a b : Vector3) :
    (a.cross_product b).x
        = expectD (Matrix.mk 2 2 [a.y, a.z, b.y, b.z]).determinant ∧
    (a.cross_product b).y
        = -1 * expectD (Matrix.mk 2 2 [a.x, a.z, b.x, b.z]).determinant ∧
    (a.cross_product b).z
        = expectD (Matrix.mk 2 2 [a.x, a.y, b.x, b.y]).determinant ∧
    a.cross_product b = Vector3.cross_direct a b ∧
    Vector3.approx_eq ((Vector3.mk 1 0 0).cross_product (Vector3.mk 0 1 0))
      (Vector3.mk 0 0 1) (1 / 1000000) := by
  refine ⟨rfl, rfl, rfl, ?_, ?_⟩
  · unfold Vector3.cross_product Vector3.cross_direct
    rw [det2_mk, det2_mk, det2_mk]
    simp only [expectD, Vector3.mk.injEq]
    refine ⟨trivial, by ring, trivial⟩
  · unfold Vector3.approx_eq RustGaming.approx_eq Vector3.cross_product
    rw [det2_mk, det2_mk, det2_mk]
    simp only [expectD]
    norm_num

/-- C9: for every vector with nonzero magnitude, `normalize` returns the
vector scaled by `1/magnitude`, and the normalized vector has magnitude
within `1e-6` of `1.0` (it is exactly `1`). -/
theorem normalize_spec (v : Vector3R) (h : v.magnitude ≠ 0) :
    v.normalize = v.multiply (1 / v.magnitude) ∧
    |v.normalize.magnitude - 1| ≤ 1 / 1000000 := by
  have hs : (0 : ℝ) ≤ v.x ^ 2 + v.y ^ 2 + v.z ^ 2 :=
    add_nonneg (add_nonneg (sq_nonneg _) (sq_nonneg _)) (sq_nonneg _)
  have hsne : v.x ^ 2 + v.y ^ 2 + v.z ^ 2 ≠ 0 := by
    intro h0
    apply h
    unfold Vector3R.magnitude
    rw [h0, Real.sqrt_zero]
  have hm2 : v.magnitude ^ 2 = v.x ^ 2 + v.y ^ 2 + v.z ^ 2 := by
    unfold Vector3R.magnitude
    exact Real.sq_sqrt hs
  have hmag : v.normalize.magnitude = 1 := by
    show Real.sqrt ((v.x / v.magnitude) ^ 2 + (v.y / v.magnitude) ^ 2
      + (v.z / v.magnitude) ^ 2) = 1
    rw [div_pow, div_pow, div_pow, div_add_div_same, div_add_div_same, hm2,
      div_self hsne, Real.sqrt_one]
  constructor
  · unfold Vector3R.normalize Vector3R.multiply
    simp only [Vector3R.mk.injEq]
    refine ⟨?_, ?_, ?_⟩ <;> rw [div_eq_mul_inv, one_div]
  · rw [hmag]
    norm_num

theorem normalize_spec_witness :
    (Vector3R.mk 1 2 2).normalize
        = (Vector3R.mk 1 2 2).multiply (1 / (Vector3R.mk 1 2 2).magnitude) ∧
    |(Vector3R.mk 1 2 2).normalize.magnitude - 1| ≤ 1 / 1000000 :=
  normalize_spec (Vector3R.mk 1 2 2)
    (show Real.sqrt ((1 : ℝ) ^ 2 + 2 ^ 2 + 2 ^ 2) ≠ 0 from
      (Real.sqrt_pos.mpr (by norm_num)).ne')

end RustGaming
